import Mathlib

/-!
Verification of the slackrs message-aggregation pipeline.

The Rust sources (src/slack.rs, src/lib.rs, src/plot.rs) are embedded
shallowly:

* machine integers become `Nat`,
* `f64` ratio values become `ℚ` (exact division; the division-by-zero
  policy of the source is kept as an explicit branch),
* the chrono library's civil-date computation and `%Y`/`%m`/`%d`
  formatting (an external dependency of `time_by_resolution`) is modelled
  by an executable proleptic-Gregorian calendar (`civilFromDays`) and
  zero-padded decimal printing (`pad4`, `pad2`),
* rendering and CSV export perform I/O and are modelled as oracles
  (`Except`-valued function parameters); `.expect(..)` panics become
  `Option`-style early termination with the panic message.
-/

/-! ## Model of the chrono calendar (external collaborator of `time_by_resolution`)

`DateTime::from_timestamp(secs, 0)` followed by `format("%Y-%m-%d")` /
`format("%Y-%m")` / `format("%Y")` renders the proleptic Gregorian civil
date of `secs / 86400` days after 1970-01-01, with the year zero-padded
to 4 digits and month/day to 2 digits. -/

/-- Gregorian leap-year test. -/
def isLeap (y : Nat) : Bool := y % 4 == 0 && (y % 100 != 0 || y % 400 == 0)

/-- Number of days in year `y`. -/
def daysInYear (y : Nat) : Nat := if isLeap y then 366 else 365

/-- Month lengths of a (leap) year, January first. -/
def monthLengths (leap : Bool) : List Nat :=
  [31, if leap then 29 else 28, 31, 30, 31, 30, 31, 31, 30, 31, 30, 31]

/-- Walk the month-length table: 0-based day-of-year `rem` to a
1-based (month, day) pair, starting at month number `m`. -/
def monthAux : List Nat → Nat → Nat → Nat × Nat
  | [], m, rem => (m, rem + 1)
  | l :: ls, m, rem => if rem < l then (m, rem + 1) else monthAux ls (m + 1) (rem - l)

/-- Peel whole years off a day count, starting at year `y`; returns the
final year and the remaining 0-based day-of-year.  `fuel` is an upper
bound on the number of iterations; any `fuel > rem` is enough. -/
def yearAux : Nat → Nat → Nat → Nat × Nat
  | 0, y, _ => (y, 0)
  | fuel + 1, y, rem =>
    if rem < daysInYear y then (y, rem) else yearAux fuel (y + 1) (rem - daysInYear y)

/-- Civil date (year, month, day) of day number `z` counted from 1970-01-01. -/
def civilFromDays (z : Nat) : Nat × Nat × Nat :=
  let (y, doy) := yearAux (z + 1) 1970 z
  let (m, d) := monthAux (monthLengths (isLeap y)) 1 doy
  (y, m, d)

/-- Strict chronological order on (year, month, day) triples. -/
def dateLt (a b : Nat × Nat × Nat) : Prop :=
  a.1 < b.1 ∨ (a.1 = b.1 ∧ (a.2.1 < b.2.1 ∨ (a.2.1 = b.2.1 ∧ a.2.2 < b.2.2)))

/-- Non-strict chronological order on (year, month, day) triples. -/
def dateLe (a b : Nat × Nat × Nat) : Prop := dateLt a b ∨ a = b

theorem monthLengths_sum (b : Bool) : (monthLengths b).sum = if b then 366 else 365 := by
  cases b <;> rfl

theorem daysInYear_eq (y : Nat) : daysInYear y = (monthLengths (isLeap y)).sum := by
  rw [monthLengths_sum, daysInYear]

theorem daysInYear_ge (y : Nat) : 365 ≤ daysInYear y := by
  unfold daysInYear; split <;> omega

theorem monthAux_fst_ge (ls : List Nat) (m rem : Nat) : m ≤ (monthAux ls m rem).1 := by
  induction ls generalizing m rem with
  | nil => simp [monthAux]
  | cons l ls ih =>
    simp only [monthAux]
    split
    · simp
    · exact Nat.le_trans (Nat.le_succ m) (ih (m + 1) (rem - l))

theorem monthAux_fst_lt (ls : List Nat) (m rem : Nat) (h : rem < ls.sum) :
    (monthAux ls m rem).1 < m + ls.length := by
  induction ls generalizing m rem with
  | nil => simp at h
  | cons l ls ih =>
    simp only [monthAux, List.sum_cons] at h ⊢
    split
    · simp
    · have := ih (m + 1) (rem - l) (by omega)
      simp only [List.length_cons]
      omega

theorem monthAux_snd_ge (ls : List Nat) (m rem : Nat) : 1 ≤ (monthAux ls m rem).2 := by
  induction ls generalizing m rem with
  | nil => simp [monthAux]
  | cons l ls ih =>
    simp only [monthAux]
    split
    · simp
    · exact ih (m + 1) (rem - l)

theorem monthAux_snd_le (ls : List Nat) (m rem B : Nat) (h : rem < ls.sum)
    (hB : ∀ l ∈ ls, l ≤ B) : (monthAux ls m rem).2 ≤ B := by
  induction ls generalizing m rem with
  | nil => simp at h
  | cons l ls ih =>
    simp only [monthAux, List.sum_cons] at h ⊢
    split
    · have := hB l (List.mem_cons_self l ls)
      simp only
      omega
    · exact ih (m + 1) (rem - l) (by omega) (fun x hx => hB x (List.mem_cons_of_mem l hx))

theorem monthAux_mono (ls : List Nat) (m r r' : Nat) (h : r < r') (h' : r' < ls.sum) :
    (monthAux ls m r).1 < (monthAux ls m r').1 ∨
      ((monthAux ls m r).1 = (monthAux ls m r').1 ∧ (monthAux ls m r).2 < (monthAux ls m r').2) := by
  induction ls generalizing m r r' with
  | nil => simp at h'
  | cons l ls ih =>
    simp only [monthAux, List.sum_cons] at h' ⊢
    by_cases hr' : r' < l
    · have hr : r < l := Nat.lt_trans h hr'
      simp only [if_pos hr, if_pos hr']
      exact Or.inr ⟨trivial, Nat.succ_lt_succ h⟩
    · by_cases hr : r < l
      · simp only [hr, if_pos, hr', if_neg, not_false_iff]
        left
        have := monthAux_fst_ge ls (m + 1) (r' - l)
        omega
      · simp only [hr, hr', if_neg, not_false_iff]
        exact ih (m + 1) (r - l) (r' - l) (by omega) (by omega)

theorem yearAux_fst_ge (fuel y rem : Nat) : y ≤ (yearAux fuel y rem).1 := by
  induction fuel generalizing y rem with
  | zero => simp [yearAux]
  | succ fuel ih =>
    simp only [yearAux]
    split
    · exact Nat.le_refl y
    · exact Nat.le_trans (Nat.le_succ y) (ih (y + 1) _)

theorem yearAux_fuel_irrel (fuel fuel' y rem : Nat) (h : rem < fuel) (h' : rem < fuel') :
    yearAux fuel y rem = yearAux fuel' y rem := by
  induction fuel generalizing fuel' y rem with
  | zero => omega
  | succ fuel ih =>
    cases fuel' with
    | zero => omega
    | succ fuel' =>
      simp only [yearAux]
      split
      · rfl
      · have hd := daysInYear_ge y
        exact ih fuel' (y + 1) (rem - daysInYear y) (by omega) (by omega)

theorem yearAux_snd_lt (fuel y rem : Nat) (h : rem < fuel) :
    (yearAux fuel y rem).2 < daysInYear (yearAux fuel y rem).1 := by
  induction fuel generalizing y rem with
  | zero => omega
  | succ fuel ih =>
    simp only [yearAux]
    split
    · simpa using ‹rem < daysInYear y›
    · have hd := daysInYear_ge y
      exact ih (y + 1) (rem - daysInYear y) (by omega)

theorem yearAux_mono (fuel y r r' : Nat) (h : r < r') (hf : r' < fuel) :
    (yearAux fuel y r).1 < (yearAux fuel y r').1 ∨
      ((yearAux fuel y r).1 = (yearAux fuel y r').1 ∧
        (yearAux fuel y r).2 < (yearAux fuel y r').2) := by
  induction fuel generalizing y r r' with
  | zero => omega
  | succ fuel ih =>
    simp only [yearAux]
    by_cases hr' : r' < daysInYear y
    · have hr : r < daysInYear y := by omega
      simp only [if_pos hr, if_pos hr']
      exact Or.inr ⟨trivial, h⟩
    · by_cases hr : r < daysInYear y
      · simp only [hr, if_pos, hr', if_neg, not_false_iff]
        left
        have h1 : y + 1 ≤ (yearAux fuel (y + 1) (r' - daysInYear y)).1 := yearAux_fst_ge _ _ _
        omega
      · simp only [hr, hr', if_neg, not_false_iff]
        have hd := daysInYear_ge y
        exact ih (y + 1) (r - daysInYear y) (r' - daysInYear y) (by omega) (by omega)

/-- The components of a civil date: year at least 1970, month in 1..12,
day in 1..31. -/
theorem civilFromDays_bounds (z : Nat) :
    1970 ≤ (civilFromDays z).1 ∧
      1 ≤ (civilFromDays z).2.1 ∧ (civilFromDays z).2.1 ≤ 12 ∧
      1 ≤ (civilFromDays z).2.2 ∧ (civilFromDays z).2.2 ≤ 31 := by
  have hy := yearAux_fst_ge (z + 1) 1970 z
  have hdoy := yearAux_snd_lt (z + 1) 1970 z (Nat.lt_succ_self z)
  rcases hYD : yearAux (z + 1) 1970 z with ⟨y, doy⟩
  rw [hYD] at hy hdoy
  simp only at hy hdoy
  rw [daysInYear_eq] at hdoy
  have hm1 := monthAux_fst_ge (monthLengths (isLeap y)) 1 doy
  have hm2 := monthAux_fst_lt (monthLengths (isLeap y)) 1 doy hdoy
  have hd1 := monthAux_snd_ge (monthLengths (isLeap y)) 1 doy
  have hd2 : (monthAux (monthLengths (isLeap y)) 1 doy).2 ≤ 31 := by
    refine monthAux_snd_le _ 1 doy 31 hdoy ?_
    unfold monthLengths
    split <;> decide
  rcases hMD : monthAux (monthLengths (isLeap y)) 1 doy with ⟨m, d⟩
  rw [hMD] at hm1 hm2 hd1 hd2
  have hlen : (monthLengths (isLeap y)).length = 12 := by unfold monthLengths; split <;> rfl
  rw [hlen] at hm2
  simp only [civilFromDays, hYD, hMD]
  simp only at hm1 hm2 hd1 hd2
  omega

/-- `civilFromDays` is strictly monotone for the chronological order. -/
theorem civilFromDays_strictMono (z z' : Nat) (h : z < z') :
    dateLt (civilFromDays z) (civilFromDays z') := by
  have hmono := yearAux_mono (z' + 1) 1970 z z' h (Nat.lt_succ_self z')
  have hdoy := yearAux_snd_lt (z' + 1) 1970 z' (Nat.lt_succ_self z')
  have hfuel := yearAux_fuel_irrel (z + 1) (z' + 1) 1970 z (Nat.lt_succ_self z) (by omega)
  rcases hY1 : yearAux (z' + 1) 1970 z with ⟨y1, r1⟩
  rcases hY2 : yearAux (z' + 1) 1970 z' with ⟨y2, r2⟩
  rw [hY1, hY2] at hmono
  rw [hY2] at hdoy
  rw [hY1] at hfuel
  simp only at hmono hdoy
  rcases hmono with hlt | ⟨heq, hrlt⟩
  · rcases hM1 : monthAux (monthLengths (isLeap y1)) 1 r1 with ⟨m1, d1⟩
    rcases hM2 : monthAux (monthLengths (isLeap y2)) 1 r2 with ⟨m2, d2⟩
    simp only [civilFromDays, hfuel, hY2, hM1, hM2]
    exact Or.inl hlt
  · subst heq
    rw [daysInYear_eq] at hdoy
    have hm := monthAux_mono (monthLengths (isLeap y1)) 1 r1 r2 hrlt hdoy
    rcases hM1 : monthAux (monthLengths (isLeap y1)) 1 r1 with ⟨m1, d1⟩
    rcases hM2 : monthAux (monthLengths (isLeap y1)) 1 r2 with ⟨m2, d2⟩
    rw [hM1, hM2] at hm
    simp only at hm
    simp only [civilFromDays, hfuel, hY2, hM1, hM2]
    exact Or.inr ⟨rfl, hm⟩

theorem civilFromDays_mono (z z' : Nat) (h : z ≤ z') :
    dateLe (civilFromDays z) (civilFromDays z') := by
  rcases Nat.lt_or_ge z z' with hlt | hge
  · exact Or.inl (civilFromDays_strictMono z z' hlt)
  · have : z = z' := by omega
    exact Or.inr (by rw [this])

/-! ## Model of chrono's zero-padded decimal date formatting -/

/-- Character of a decimal digit. -/
def digitCharN (n : Nat) : Char := Char.ofNat (48 + n)

/-- Decimal digits of `n`, most significant first (`[]` for 0);
`fuel`-bounded structural recursion, any `fuel > n` is exact. -/
def decDigitsF : Nat → Nat → List Nat
  | 0, _ => []
  | fuel + 1, n => if n = 0 then [] else decDigitsF fuel (n / 10) ++ [n % 10]

/-- Decimal digits of `n`, most significant first. -/
def decDigits (n : Nat) : List Nat := decDigitsF (n + 1) n

/-- Digits zero-padded on the left to width `w` (longer numbers keep all
their digits, as chrono's `%Y` does for years above 9999). -/
def padDigits (w n : Nat) : List Nat :=
  List.replicate (w - (decDigits n).length) 0 ++ decDigits n

/-- Year rendered as by chrono's `%Y` (zero-padded to 4 digits). -/
def pad4 (n : Nat) : List Char := (padDigits 4 n).map digitCharN

/-- Month/day rendered as by chrono's `%m` / `%d` (zero-padded to 2 digits). -/
def pad2 (n : Nat) : List Char := (padDigits 2 n).map digitCharN

/-- The `%Y` format of a civil date. -/
def fmtDateY (p : Nat × Nat × Nat) : String := ⟨pad4 p.1⟩

/-- The `%Y-%m` format of a civil date. -/
def fmtDateYM (p : Nat × Nat × Nat) : String := ⟨pad4 p.1 ++ '-' :: pad2 p.2.1⟩

/-- The `%Y-%m-%d` format of a civil date. -/
def fmtDateYMD (p : Nat × Nat × Nat) : String :=
  ⟨pad4 p.1 ++ '-' :: (pad2 p.2.1 ++ '-' :: pad2 p.2.2)⟩

/-- Reassemble a most-significant-first digit list. -/
def ofDigitsMSB (ds : List Nat) : Nat := ds.foldl (fun acc d => 10 * acc + d) 0

theorem foldl_digits_append (ds : List Nat) (a d : Nat) :
    (ds ++ [d]).foldl (fun acc x => 10 * acc + x) a =
      10 * ds.foldl (fun acc x => 10 * acc + x) a + d := by
  rw [List.foldl_append]
  rfl

theorem decDigitsF_roundTrip (fuel n : Nat) (h : n < fuel) :
    ofDigitsMSB (decDigitsF fuel n) = n := by
  induction fuel generalizing n with
  | zero => omega
  | succ fuel ih =>
    by_cases h0 : n = 0
    · subst h0; rfl
    · have hdiv : n / 10 < fuel := by omega
      simp only [decDigitsF, if_neg h0]
      unfold ofDigitsMSB at ih ⊢
      rw [foldl_digits_append, ih (n / 10) hdiv]
      omega

theorem decDigits_roundTrip (n : Nat) : ofDigitsMSB (decDigits n) = n :=
  decDigitsF_roundTrip (n + 1) n (Nat.lt_succ_self n)

theorem foldl_digits_replicate_zero (k : Nat) :
    (List.replicate k 0).foldl (fun acc x => 10 * acc + x) 0 = 0 := by
  induction k with
  | zero => rfl
  | succ k ih =>
    rw [List.replicate_succ]
    simpa using ih

theorem padDigits_roundTrip (w n : Nat) : ofDigitsMSB (padDigits w n) = n := by
  unfold padDigits ofDigitsMSB
  rw [List.foldl_append, foldl_digits_replicate_zero]
  exact decDigits_roundTrip n

theorem padDigits_inj (w a b : Nat) (h : padDigits w a = padDigits w b) : a = b := by
  have := padDigits_roundTrip w a
  rw [h, padDigits_roundTrip w b] at this
  omega

theorem decDigitsF_lt_ten (fuel n : Nat) : ∀ d ∈ decDigitsF fuel n, d < 10 := by
  induction fuel generalizing n with
  | zero => intro d hd; simp [decDigitsF] at hd
  | succ fuel ih =>
    intro d hd
    by_cases h0 : n = 0
    · subst h0; simp [decDigitsF] at hd
    · simp only [decDigitsF, if_neg h0, List.mem_append, List.mem_singleton] at hd
      rcases hd with hd | hd
      · exact ih (n / 10) d hd
      · subst hd; exact Nat.mod_lt n (by omega)

theorem padDigits_lt_ten (w n : Nat) : ∀ d ∈ padDigits w n, d < 10 := by
  intro d hd
  simp only [padDigits, List.mem_append, List.mem_replicate] at hd
  rcases hd with ⟨_, hd⟩ | hd
  · omega
  · exact decDigitsF_lt_ten (n + 1) n d hd

theorem digitCharN_inj : ∀ a, a < 10 → ∀ b, b < 10 → digitCharN a = digitCharN b → a = b := by
  decide

theorem map_digitCharN_inj (ds1 : List Nat) : ∀ ds2 : List Nat, (∀ d ∈ ds1, d < 10) →
    (∀ d ∈ ds2, d < 10) → ds1.map digitCharN = ds2.map digitCharN → ds1 = ds2 := by
  induction ds1 with
  | nil =>
    intro ds2 _ _ h
    cases ds2 with
    | nil => rfl
    | cons e es => simp at h
  | cons d ds ih =>
    intro ds2 h1 h2 h
    cases ds2 with
    | nil => simp at h
    | cons e es =>
      simp only [List.map_cons, List.cons.injEq] at h
      have hde : d = e :=
        digitCharN_inj d (h1 d (List.mem_cons_self d ds)) e (h2 e (List.mem_cons_self e es)) h.1
      have hrest : ds = es :=
        ih es (fun x hx => h1 x (List.mem_cons_of_mem d hx))
          (fun x hx => h2 x (List.mem_cons_of_mem e hx)) h.2
      rw [hde, hrest]

theorem pad4_inj (a b : Nat) (h : pad4 a = pad4 b) : a = b :=
  padDigits_inj 4 a b
    (map_digitCharN_inj _ _ (padDigits_lt_ten 4 a) (padDigits_lt_ten 4 b) h)

theorem pad2_inj (a b : Nat) (h : pad2 a = pad2 b) : a = b :=
  padDigits_inj 2 a b
    (map_digitCharN_inj _ _ (padDigits_lt_ten 2 a) (padDigits_lt_ten 2 b) h)

theorem decDigitsF_length_le (fuel n k : Nat) (h : n < 10 ^ k) :
    (decDigitsF fuel n).length ≤ k := by
  induction fuel generalizing n k with
  | zero => simp [decDigitsF]
  | succ fuel ih =>
    by_cases h0 : n = 0
    · subst h0; simp [decDigitsF]
    · cases k with
      | zero => simp at h; omega
      | succ k =>
        simp only [decDigitsF, if_neg h0, List.length_append, List.length_singleton]
        have hdiv : n / 10 < 10 ^ k := by
          rw [Nat.div_lt_iff_lt_mul (by omega : 0 < 10)]
          calc n < 10 ^ (k + 1) := h
            _ = 10 ^ k * 10 := by ring
        have := ih (n / 10) k hdiv
        omega

theorem pad2_length (n : Nat) (h : n < 100) : (pad2 n).length = 2 := by
  have hlen : (decDigits n).length ≤ 2 :=
    decDigitsF_length_le (n + 1) n 2 (by norm_num; omega)
  simp only [pad2, padDigits, List.length_map, List.length_append, List.length_replicate]
  omega

/-- Equal `%Y-%m` strings with in-range months have the same year and month. -/
theorem fmtDateYM_inj (p q : Nat × Nat × Nat) (hm1 : p.2.1 < 100) (hm2 : q.2.1 < 100)
    (h : fmtDateYM p = fmtDateYM q) : p.1 = q.1 ∧ p.2.1 = q.2.1 := by
  unfold fmtDateYM at h
  have hl : pad4 p.1 ++ '-' :: pad2 p.2.1 = pad4 q.1 ++ '-' :: pad2 q.2.1 :=
    congrArg String.data h
  have hlen : ('-' :: pad2 p.2.1).length = ('-' :: pad2 q.2.1).length := by
    simp only [List.length_cons, pad2_length _ hm1, pad2_length _ hm2]
  obtain ⟨h4, hrest⟩ := List.append_inj' hl hlen
  have h2 : pad2 p.2.1 = pad2 q.2.1 := by
    injection hrest with _ h2
  exact ⟨pad4_inj _ _ h4, pad2_inj _ _ h2⟩

/-- Equal `%Y-%m-%d` strings with in-range months and days are the same date. -/
theorem fmtDateYMD_inj (p q : Nat × Nat × Nat) (hmp : p.2.1 < 100) (hmq : q.2.1 < 100)
    (hdp : p.2.2 < 100) (hdq : q.2.2 < 100) (h : fmtDateYMD p = fmtDateYMD q) : p = q := by
  unfold fmtDateYMD at h
  have hl : pad4 p.1 ++ '-' :: (pad2 p.2.1 ++ '-' :: pad2 p.2.2) =
      pad4 q.1 ++ '-' :: (pad2 q.2.1 ++ '-' :: pad2 q.2.2) := congrArg String.data h
  have hlen : ('-' :: (pad2 p.2.1 ++ '-' :: pad2 p.2.2)).length =
      ('-' :: (pad2 q.2.1 ++ '-' :: pad2 q.2.2)).length := by
    simp only [List.length_cons, List.length_append, pad2_length _ hmp, pad2_length _ hmq,
      pad2_length _ hdp, pad2_length _ hdq]
  obtain ⟨h4, hrest⟩ := List.append_inj' hl hlen
  have hmd : pad2 p.2.1 ++ '-' :: pad2 p.2.2 = pad2 q.2.1 ++ '-' :: pad2 q.2.2 := by
    injection hrest with _ hmd
  have hlen2 : ('-' :: pad2 p.2.2).length = ('-' :: pad2 q.2.2).length := by
    simp only [List.length_cons, pad2_length _ hdp, pad2_length _ hdq]
  obtain ⟨hm, hrest2⟩ := List.append_inj' hmd hlen2
  have hd : pad2 p.2.2 = pad2 q.2.2 := by
    injection hrest2 with _ hd
  have e1 := pad4_inj _ _ h4
  have e2 := pad2_inj _ _ hm
  have e3 := pad2_inj _ _ hd
  rcases p with ⟨py, pm, pd⟩
  rcases q with ⟨qy, qm, qd⟩
  simp only at e1 e2 e3
  rw [e1, e2, e3]

/-! ## Embedding of src/slack.rs -/

/-- Rust's `str::contains`: substring test (model: list-infix on the
character data; the empty pattern matches every string). -/
def strContains (s pattern : String) : Bool := decide (pattern.data <:+: s.data)

/-- A message attachment (metadata fields that no code reads are kept as
in the source). -/
structure MessageAttachment where
  id : Option Nat
  text : Option String

/-- Returns true if the attachment text contains the given pattern
(`MessageAttachment::contains`). -/
def MessageAttachment.contains (a : MessageAttachment) (pattern : String) : Bool :=
  match a.text with
  | some text => strContains text pattern
  | none => false

/-- A message block; blocks can be nested through `elements`. -/
inductive MessageBlock where
  | mk (json_type : String) (block_id : Option String) (text : Option String)
      (elements : Option (List MessageBlock))

def MessageBlock.text : MessageBlock → Option String
  | .mk _ _ t _ => t

def MessageBlock.elements : MessageBlock → Option (List MessageBlock)
  | .mk _ _ _ e => e

mutual

/-- `MessageBlock::contains`: when the block has a `text` field the result
is the substring test on that text alone (the source returns at that
point); otherwise the sub-blocks are searched. -/
def MessageBlock.contains : MessageBlock → String → Bool
  | .mk _ _ (some text) _, pattern => strContains text pattern
  | .mk _ _ none (some elements), pattern => blockListContains elements pattern
  | .mk _ _ none none, _ => false

/-- The source's `for element in elements { if element.contains(..) ... }` loop. -/
def blockListContains : List MessageBlock → String → Bool
  | [], _ => false
  | b :: rest, pattern => b.contains pattern || blockListContains rest pattern

end

/-- A Slack message.  Metadata fields never read by any code under
verification (`json_type`, team identifiers, `user_profile`, thread
fields, `client_msg_id`) are omitted.  The source keeps `ts` as a string
and `Message::time` parses its integer part, discarding sub-seconds; the
model stores the parsed value: `time` in seconds since the epoch. -/
structure Message where
  user : Option String
  ts : Nat
  text : String
  attachments : Option (List MessageAttachment)
  blocks : Option (List MessageBlock)

/-- `Message::time` as seconds since the epoch (sub-seconds discarded). -/
def Message.time (msg : Message) : Nat := msg.ts

/-- The source's `for attachment in self.attachments.iter().flatten()` loop. -/
def attachmentListContains : List MessageAttachment → String → Bool
  | [], _ => false
  | a :: rest, pattern => a.contains pattern || attachmentListContains rest pattern

/-- `Message::contains`: the message text, then every attachment, then
every top-level block (each search short-circuits like the source's
early returns). -/
def Message.contains (msg : Message) (pattern : String) : Bool :=
  strContains msg.text pattern ||
    attachmentListContains (msg.attachments.getD []) pattern ||
    blockListContains (msg.blocks.getD []) pattern

/-- A message annotated with the channel it was read from. -/
structure MessageInChannel where
  channel : String
  message : Message

mutual

/-- Modelled from the spec: all text recursively reachable inside one
block, i.e. its own `text` (when present) together with the text of all
its nested sub-blocks. -/
def MessageBlock.allTexts : MessageBlock → List String
  | .mk _ _ t e =>
    (match t with | some s => [s] | none => []) ++
      (match e with | some es => blockListTexts es | none => [])

/-- Modelled from the spec: all text of a list of blocks. -/
def blockListTexts : List MessageBlock → List String
  | [] => []
  | b :: rest => b.allTexts ++ blockListTexts rest

end

/-- Modelled from the spec: a record's *effective text* — the union of
its direct text and all text recursively reachable through its
attachments and its (arbitrarily nested) blocks. -/
def Message.effectiveTexts (msg : Message) : List String :=
  msg.text :: ((msg.attachments.getD []).filterMap MessageAttachment.text ++
    blockListTexts (msg.blocks.getD []))

/-- Modelled from the spec: the matching predicate of the pattern filter —
the pattern is a substring of the record's effective text. -/
def MessageContainsSpec (msg : Message) (pattern : String) : Prop :=
  ∃ t ∈ msg.effectiveTexts, pattern.data <:+: t.data

/-! ## Embedding of src/plot.rs: data types -/

inductive Metric where
  | MentionCount (channel_pattern : String) (message_pattern : String)
  | StringMessageCountRatio (channel_pattern : String) (message_pattern1 : String)
      (message_pattern2 : String)
deriving DecidableEq

inductive TimeResolution where
  | Daily
  | Monthly
  | Yearly
deriving DecidableEq

structure PlotTask where
  metric : Metric
  resolution : TimeResolution
  output_file_name : String
  colors : Option (List String)

/-! ## Embedding of src/lib.rs -/

/-- `time_by_resolution`: format the message time at the task's
resolution (`%Y-%m-%d`, `%Y-%m` or `%Y`; chrono modelled by
`civilFromDays` and the pad/format functions above). -/
def time_by_resolution (msg : MessageInChannel) (resolution : TimeResolution) : String :=
  match resolution with
  | .Daily => fmtDateYMD (civilFromDays (msg.message.time / 86400))
  | .Monthly => fmtDateYM (civilFromDays (msg.message.time / 86400))
  | .Yearly => fmtDateY (civilFromDays (msg.message.time / 86400))

/-- One iteration of the `group_messages_by_time` loop, at `index` over a
total of `n` messages; the accumulator carries
(`message_counts`, `last_count`, `last_label`). -/
def groupStep (n : Nat) (resolution : TimeResolution)
    (acc : List (String × Nat) × Nat × String) (p : Nat × MessageInChannel) :
    List (String × Nat) × Nat × String :=
  let message_counts := acc.1
  let last_count := acc.2.1
  let last_label := acc.2.2
  let index := p.1
  let time_label := time_by_resolution p.2 resolution
  let (last_count, last_label) :=
    if index = 0 then (1, time_label)
    else if time_label = last_label then (last_count + 1, last_label)
    else (last_count, last_label)
  let (message_counts, last_count, last_label) :=
    if time_label ≠ last_label then
      (message_counts ++ [(last_label, last_count)], 1, time_label)
    else (message_counts, last_count, last_label)
  let message_counts :=
    if index = n - 1 then message_counts ++ [(last_label, last_count)] else message_counts
  (message_counts, last_count, last_label)

/-- `group_messages_by_time`: group messages by `TimeResolution` and
count them (the source's indexed `for` loop becomes a fold over the
enumerated list). -/
def group_messages_by_time (messages_to_plot : List MessageInChannel)
    (resolution : TimeResolution) : List (String × Nat) :=
  (messages_to_plot.enum.foldl (groupStep messages_to_plot.length resolution)
    ([], 0, "")).1

/-- `filter_and_count_messages`: keep the messages whose channel contains
the channel pattern and whose message matches the message pattern, then
group by time. -/
def filter_and_count_messages (messages : List MessageInChannel)
    (channel_pattern message_pattern : String) (resolution : TimeResolution) :
    List (String × Nat) :=
  group_messages_by_time
    (messages.filter fun x =>
      strContains x.channel channel_pattern && x.message.contains message_pattern)
    resolution

/-! ## Embedding of src/plot.rs: series functions -/

/-- The labels of a series (`label_set` builds a `HashSet<String>` of
them; the model keeps the support list, membership is set membership). -/
def label_set (message_counts : List (String × Nat)) : List String :=
  message_counts.map Prod.fst

/-- `consolidate_labels`: keep, in each series, exactly the pairs whose
label lies in the intersection of the two label sets. -/
def consolidate_labels (message_counts1 message_counts2 : List (String × Nat)) :
    List (String × Nat) × List (String × Nat) :=
  let shared_labels : String → Bool := fun label =>
    decide (label ∈ label_set message_counts1) && decide (label ∈ label_set message_counts2)
  (message_counts1.filter fun p => shared_labels p.1,
   message_counts2.filter fun p => shared_labels p.1)

/-- `calculate_time_series_ratios`: zip the labels with both count
series; each ratio is `count1 / (count1 + count2)`, with `0` when both
counts are zero.  `f64` arithmetic is modelled by exact `ℚ` arithmetic. -/
def calculate_time_series_ratios (labels : List String)
    (message_counts1 message_counts2 : List (String × Nat)) : List (String × ℚ) :=
  ((labels.zip message_counts1).zip message_counts2).map
    fun q =>
      (q.1.1,
        if q.2.2 + q.1.2.2 = 0 then (0 : ℚ)
        else (q.1.2.2 : ℚ) / (((q.1.2.2 + q.2.2 : Nat)) : ℚ))

/-- The body of the `process_tasks` loop for one task: dispatch on the
metric, filter and count, and hand the series to the rendering oracle. -/
def run_task
    (counter_plot : PlotTask → String → List (String × Nat) → Except String Unit)
    (ratio_plot : PlotTask → String → List (String × Nat) → String →
      List (String × Nat) → Except String Unit)
    (messages : List MessageInChannel) (task : PlotTask) : Except String Unit :=
  match task.metric with
  | .MentionCount channel_pattern message_pattern =>
    counter_plot task message_pattern
      (filter_and_count_messages messages channel_pattern message_pattern
        task.resolution)
  | .StringMessageCountRatio channel_pattern message_pattern1 message_pattern2 =>
    ratio_plot task message_pattern1
      (filter_and_count_messages messages channel_pattern message_pattern1
        task.resolution)
      message_pattern2
      (filter_and_count_messages messages channel_pattern message_pattern2
        task.resolution)

/-- Model of `process_tasks`.  The source iterates the tasks with
`par_iter().for_each`; the model is the sequential execution of that
loop.  `counter_plot` and `ratio_plot` render images and write CSV files,
so they are oracles; the source unwraps their results with
`.expect("Image generation failed.")`, which panics — in the model a
panic stops processing and is returned as the second component, next to
the output files of the tasks completed before it. -/
def process_tasks
    (counter_plot : PlotTask → String → List (String × Nat) → Except String Unit)
    (ratio_plot : PlotTask → String → List (String × Nat) → String →
      List (String × Nat) → Except String Unit)
    (tasks : List PlotTask) (messages : List MessageInChannel) :
    List String × Option String :=
  match tasks with
  | [] => ([], none)
  | task :: rest =>
    match run_task counter_plot ratio_plot messages task with
    | .error e => ([], some ("Image generation failed.: " ++ e))
    | .ok _ =>
      let rec_result := process_tasks counter_plot ratio_plot rest messages
      (task.output_file_name :: rec_result.1, rec_result.2)

/-! ## Run-length-encoding view of the grouping loop -/

/-- Run-length encoding, given a current run of `c` occurrences of `l`. -/
def rleAux {α : Type} [DecidableEq α] (l : α) (c : Nat) : List α → List (α × Nat)
  | [] => [(l, c)]
  | x :: xs => if x = l then rleAux l (c + 1) xs else (l, c) :: rleAux x 1 xs

/-- Run-length encoding of a list. -/
def rle {α : Type} [DecidableEq α] : List α → List (α × Nat)
  | [] => []
  | x :: xs => rleAux x 1 xs

theorem groupStep_zero (n : Nat) (resolution : TimeResolution)
    (acc : List (String × Nat)) (c : Nat) (l : String) (x : MessageInChannel) :
    groupStep n resolution (acc, c, l) (0, x) =
      (if 0 = n - 1 then acc ++ [(time_by_resolution x resolution, 1)] else acc,
       1, time_by_resolution x resolution) := by
  simp [groupStep]

theorem groupStep_pos (n : Nat) (resolution : TimeResolution)
    (acc : List (String × Nat)) (c : Nat) (l : String) (i : Nat) (x : MessageInChannel)
    (hi : i ≠ 0) :
    groupStep n resolution (acc, c, l) (i, x) =
      if time_by_resolution x resolution = l then
        (if i = n - 1 then acc ++ [(l, c + 1)] else acc, c + 1, l)
      else
        (if i = n - 1 then acc ++ [(l, c)] ++ [(time_by_resolution x resolution, 1)]
         else acc ++ [(l, c)],
         1, time_by_resolution x resolution) := by
  by_cases htl : time_by_resolution x resolution = l
  · simp [groupStep, hi, htl]
  · simp [groupStep, hi, htl]

theorem rleAux_cons {α : Type} [DecidableEq α] (l x : α) (c : Nat) (xs : List α) :
    rleAux l c (x :: xs) = if x = l then rleAux l (c + 1) xs else (l, c) :: rleAux x 1 xs :=
  rfl

theorem enumFrom_cons_eq {α : Type} (n : Nat) (x : α) (xs : List α) :
    List.enumFrom n (x :: xs) = (n, x) :: List.enumFrom (n + 1) xs := rfl

theorem groupStep_foldl_aux (n : Nat) (resolution : TimeResolution) :
    ∀ (xs : List MessageInChannel) (x : MessageInChannel) (i c : Nat) (l : String)
      (acc : List (String × Nat)), 1 ≤ i → i + (x :: xs).length = n →
      ((List.enumFrom i (x :: xs)).foldl (groupStep n resolution) (acc, c, l)).1 =
        acc ++ rleAux l c ((x :: xs).map fun m => time_by_resolution m resolution) := by
  intro xs
  induction xs with
  | nil =>
    intro x i c l acc hi hn
    have hlast : i = n - 1 := by simp at hn; omega
    simp only [List.enumFrom, List.foldl_cons, List.foldl_nil, List.map_cons, List.map_nil]
    rw [groupStep_pos n resolution acc c l i x (by omega)]
    by_cases htl : time_by_resolution x resolution = l
    · simp only [htl, if_pos, rleAux, if_pos hlast]
    · simp only [htl, if_neg, not_false_iff, if_pos hlast, rleAux]
      simp
  | cons y ys ih =>
    intro x i c l acc hi hn
    have hmid : i ≠ n - 1 := by simp at hn; omega
    rw [enumFrom_cons_eq, List.foldl_cons, List.map_cons, rleAux_cons]
    rw [groupStep_pos n resolution acc c l i x (by omega)]
    by_cases htl : time_by_resolution x resolution = l
    · rw [if_pos htl, if_neg hmid, if_pos htl]
      exact ih y (i + 1) (c + 1) l acc (by omega) (by simp at hn ⊢; omega)
    · rw [if_neg htl, if_neg hmid, if_neg htl]
      rw [ih y (i + 1) 1 (time_by_resolution x resolution) (acc ++ [(l, c)]) (by omega)
        (by simp at hn ⊢; omega)]
      simp

/-- The grouping loop is run-length encoding of the per-message labels. -/
theorem group_messages_by_time_eq_rle (messages : List MessageInChannel)
    (resolution : TimeResolution) :
    group_messages_by_time messages resolution =
      rle (messages.map fun m => time_by_resolution m resolution) := by
  match messages with
  | [] => rfl
  | [x] =>
    show (List.foldl (groupStep 1 resolution) ([], 0, "") [(0, x)]).1 = _
    rw [List.foldl_cons, List.foldl_nil, groupStep_zero]
    simp [rle, rleAux]
  | x :: y :: ys =>
    show (List.foldl (groupStep (x :: y :: ys).length resolution) ([], 0, "")
      ((0, x) :: List.enumFrom 1 (y :: ys))).1 = _
    rw [List.foldl_cons, groupStep_zero,
      if_neg (by simp : ¬ (0 = (x :: y :: ys).length - 1))]
    rw [groupStep_foldl_aux _ resolution ys y 1 1 (time_by_resolution x resolution) []
      (by omega) (by simp only [List.length_cons]; omega)]
    simp only [List.map_cons, List.nil_append]
    rfl

theorem rleAux_snd_sum {α : Type} [DecidableEq α] :
    ∀ (xs : List α) (l : α) (c : Nat), ((rleAux l c xs).map Prod.snd).sum = c + xs.length := by
  intro xs
  induction xs with
  | nil => intro l c; simp [rleAux]
  | cons x xs ih =>
    intro l c
    rw [rleAux_cons]
    by_cases hx : x = l
    · rw [if_pos hx, ih l (c + 1)]
      simp; omega
    · rw [if_neg hx]
      simp only [List.map_cons, List.sum_cons, ih x 1]
      simp; omega

theorem rle_snd_sum {α : Type} [DecidableEq α] (xs : List α) :
    ((rle xs).map Prod.snd).sum = xs.length := by
  cases xs with
  | nil => rfl
  | cons x xs =>
    show ((rleAux x 1 xs).map Prod.snd).sum = (x :: xs).length
    rw [rleAux_snd_sum xs x 1]
    simp only [List.length_cons]
    omega

theorem rleAux_fst_head {α : Type} [DecidableEq α] :
    ∀ (xs : List α) (l : α) (c : Nat), ∃ tl, (rleAux l c xs).map Prod.fst = l :: tl := by
  intro xs
  induction xs with
  | nil => intro l c; exact ⟨[], rfl⟩
  | cons x xs ih =>
    intro l c
    rw [rleAux_cons]
    by_cases hx : x = l
    · rw [if_pos hx]; exact ih l (c + 1)
    · rw [if_neg hx]
      obtain ⟨tl, htl⟩ := ih x 1
      exact ⟨(rleAux x 1 xs).map Prod.fst, by simp⟩

theorem rleAux_fst_subset {α : Type} [DecidableEq α] :
    ∀ (xs : List α) (l : α) (c : Nat) (a : α),
      a ∈ (rleAux l c xs).map Prod.fst → a ∈ l :: xs := by
  intro xs
  induction xs with
  | nil =>
    intro l c a ha
    simp [rleAux] at ha
    simp [ha]
  | cons x xs ih =>
    intro l c a ha
    rw [rleAux_cons] at ha
    by_cases hx : x = l
    · rw [if_pos hx] at ha
      have := ih l (c + 1) a ha
      simp at this ⊢
      tauto
    · rw [if_neg hx] at ha
      simp only [List.map_cons, List.mem_cons] at ha
      rcases ha with ha | ha
      · simp [ha]
      · have := ih x 1 a ha
        simp at this ⊢
        tauto

theorem rleAux_map {α β : Type} [DecidableEq α] [DecidableEq β] (F : α → β) :
    ∀ (xs : List α) (l : α) (c : Nat),
      (∀ a ∈ l :: xs, ∀ b ∈ l :: xs, F a = F b → a = b) →
      rleAux (F l) c (xs.map F) = (rleAux l c xs).map fun p => (F p.1, p.2) := by
  intro xs
  induction xs with
  | nil => intro l c _; rfl
  | cons x xs ih =>
    intro l c hinj
    rw [List.map_cons, rleAux_cons, rleAux_cons]
    by_cases hx : x = l
    · rw [if_pos (by rw [hx]), if_pos hx]
      exact ih l (c + 1) fun a ha b hb h =>
        hinj a (by simp at ha ⊢; tauto) b (by simp at hb ⊢; tauto) h
    · have hFx : F x ≠ F l := fun h =>
        hx (hinj x (by simp) l (by simp) h)
      rw [if_neg hFx, if_neg hx]
      rw [ih x 1 fun a ha b hb h =>
        hinj a (by simp at ha ⊢; tauto) b (by simp at hb ⊢; tauto) h]
      rfl

theorem rle_map {α β : Type} [DecidableEq α] [DecidableEq β] (F : α → β) (xs : List α)
    (hinj : ∀ a ∈ xs, ∀ b ∈ xs, F a = F b → a = b) :
    rle (xs.map F) = (rle xs).map fun p => (F p.1, p.2) := by
  cases xs with
  | nil => rfl
  | cons x xs =>
    rw [List.map_cons]
    show rleAux (F x) 1 (xs.map F) = _
    exact rleAux_map F xs x 1 hinj

theorem rleAux_chain {α : Type} [DecidableEq α] (R : α → α → Prop) :
    ∀ (xs : List α) (l : α) (c : Nat), List.Chain' R (l :: xs) →
      List.Chain' (fun a b => R a b ∧ a ≠ b) ((rleAux l c xs).map Prod.fst) := by
  intro xs
  induction xs with
  | nil => intro l c _; simp [rleAux]
  | cons x xs ih =>
    intro l c hchain
    rw [List.chain'_cons] at hchain
    rw [rleAux_cons]
    by_cases hx : x = l
    · rw [if_pos hx]
      refine ih l (c + 1) ?_
      subst hx
      exact hchain.2
    · rw [if_neg hx]
      obtain ⟨tl, htl⟩ := rleAux_fst_head xs x 1
      simp only [List.map_cons, htl]
      rw [List.chain'_cons]
      constructor
      · exact ⟨hchain.1, fun h => hx h.symm⟩
      · rw [← htl]
        exact ih x 1 hchain.2

/-! ## Time buckets underlying the labels -/

/-- The calendar bucket a timestamp falls into at a given resolution
(unused components are zeroed). -/
def bucketOf (resolution : TimeResolution) (t : Nat) : Nat × Nat × Nat :=
  match resolution with
  | .Daily => civilFromDays (t / 86400)
  | .Monthly => ((civilFromDays (t / 86400)).1, (civilFromDays (t / 86400)).2.1, 0)
  | .Yearly => ((civilFromDays (t / 86400)).1, 0, 0)

/-- The label a bucket is rendered as, per resolution. -/
def fmtBucket (resolution : TimeResolution) : Nat × Nat × Nat → String :=
  match resolution with
  | .Daily => fmtDateYMD
  | .Monthly => fmtDateYM
  | .Yearly => fmtDateY

theorem time_by_resolution_eq_fmt (msg : MessageInChannel) (resolution : TimeResolution) :
    time_by_resolution msg resolution =
      fmtBucket resolution (bucketOf resolution msg.message.time) := by
  cases resolution <;> rfl

/-- The bucket components that `fmtBucket` must separate, per resolution. -/
def validBucket (resolution : TimeResolution) (b : Nat × Nat × Nat) : Prop :=
  match resolution with
  | .Daily => b.2.1 ≤ 12 ∧ b.2.2 ≤ 31
  | .Monthly => b.2.1 ≤ 12 ∧ b.2.2 = 0
  | .Yearly => b.2.1 = 0 ∧ b.2.2 = 0

theorem dateLt_mk (y1 m1 d1 y2 m2 d2 : Nat) :
    dateLt (y1, m1, d1) (y2, m2, d2) ↔
      y1 < y2 ∨ (y1 = y2 ∧ (m1 < m2 ∨ (m1 = m2 ∧ d1 < d2))) := Iff.rfl

theorem dateLe_mk (y1 m1 d1 y2 m2 d2 : Nat) :
    dateLe (y1, m1, d1) (y2, m2, d2) ↔
      y1 < y2 ∨ (y1 = y2 ∧ (m1 < m2 ∨ (m1 = m2 ∧ d1 ≤ d2))) := by
  unfold dateLe
  rw [dateLt_mk, Prod.mk.injEq, Prod.mk.injEq]
  omega

theorem bucketOf_valid (resolution : TimeResolution) (t : Nat) :
    validBucket resolution (bucketOf resolution t) := by
  have h := civilFromDays_bounds (t / 86400)
  cases resolution
  · exact ⟨h.2.2.1, h.2.2.2.2⟩
  · exact ⟨h.2.2.1, rfl⟩
  · exact ⟨rfl, rfl⟩

theorem fmtBucket_inj (resolution : TimeResolution) (a b : Nat × Nat × Nat)
    (ha : validBucket resolution a) (hb : validBucket resolution b)
    (h : fmtBucket resolution a = fmtBucket resolution b) : a = b := by
  cases resolution
  · obtain ⟨ha1, ha2⟩ := ha
    obtain ⟨hb1, hb2⟩ := hb
    exact fmtDateYMD_inj a b (by omega) (by omega) (by omega) (by omega) h
  · obtain ⟨ha1, ha2⟩ := ha
    obtain ⟨hb1, hb2⟩ := hb
    obtain ⟨h1, h2⟩ := fmtDateYM_inj a b (by omega) (by omega) h
    rcases a with ⟨a1, a2, a3⟩
    rcases b with ⟨b1, b2, b3⟩
    simp only at h1 h2 ha2 hb2
    rw [h1, h2, ha2, hb2]
  · obtain ⟨ha1, ha2⟩ := ha
    obtain ⟨hb1, hb2⟩ := hb
    have h1 : a.1 = b.1 := pad4_inj _ _ (congrArg String.data h)
    rcases a with ⟨a1, a2, a3⟩
    rcases b with ⟨b1, b2, b3⟩
    simp only at h1 ha1 ha2 hb1 hb2
    rw [h1, ha1, ha2, hb1, hb2]

theorem bucketOf_mono (resolution : TimeResolution) (t t' : Nat) (h : t ≤ t') :
    dateLe (bucketOf resolution t) (bucketOf resolution t') := by
  have hc := civilFromDays_mono (t / 86400) (t' / 86400) (Nat.div_le_div_right h)
  rcases hC : civilFromDays (t / 86400) with ⟨y1, m1, d1⟩
  rcases hC' : civilFromDays (t' / 86400) with ⟨y2, m2, d2⟩
  rw [hC, hC', dateLe_mk] at hc
  cases resolution <;>
    simp only [bucketOf, hC, hC', Prod.fst, Prod.snd] <;> rw [dateLe_mk] <;> omega

instance : IsTrans (Nat × Nat × Nat) dateLt :=
  ⟨by intro a b c hab hbc; unfold dateLt at hab hbc ⊢; omega⟩

theorem dateLt_irrefl (a : Nat × Nat × Nat) : ¬dateLt a a := by
  unfold dateLt; omega

theorem dateLe_ne_lt (a b : Nat × Nat × Nat) (hab : dateLe a b) (hne : a ≠ b) :
    dateLt a b := by
  rcases hab with hab | hab
  · exact hab
  · exact absurd hab hne

theorem rle_chain {α : Type} [DecidableEq α] (R : α → α → Prop) (xs : List α)
    (h : List.Chain' R xs) :
    List.Chain' (fun a b => R a b ∧ a ≠ b) ((rle xs).map Prod.fst) := by
  cases xs with
  | nil => simp [rle]
  | cons x xs => exact rleAux_chain R xs x 1 h

theorem rle_fst_subset {α : Type} [DecidableEq α] (xs : List α) (a : α)
    (ha : a ∈ (rle xs).map Prod.fst) : a ∈ xs := by
  cases xs with
  | nil => simp [rle] at ha
  | cons x xs => exact rleAux_fst_subset xs x 1 a ha

/-! ## Claims about the aggregator -/

/-- C2: for every record sequence sorted ascending by timestamp and every
resolution (Daily, Monthly, Yearly), `group_messages_by_time` produces a
series whose labels contain no duplicates and are in non-decreasing time
order: the label list renders, through the resolution's date format, a
strictly chronologically increasing sequence of calendar buckets. -/
theorem group_messages_by_time_sorted_labels (msgs : List MessageInChannel)
    (resolution : TimeResolution)
    (hsorted : List.Pairwise (fun a b => a.message.time ≤ b.message.time) msgs) :
    ((group_messages_by_time msgs resolution).map Prod.fst).Nodup ∧
      ∃ ks : List (Nat × Nat × Nat), ks.Chain' dateLt ∧
        (group_messages_by_time msgs resolution).map Prod.fst =
          ks.map (fmtBucket resolution) := by
  have hmapeq : (msgs.map fun m => time_by_resolution m resolution) =
      (msgs.map fun m => bucketOf resolution m.message.time).map (fmtBucket resolution) := by
    rw [List.map_map]
    exact List.map_congr_left fun m _ => time_by_resolution_eq_fmt m resolution
  have heq : group_messages_by_time msgs resolution =
      rle ((msgs.map fun m => bucketOf resolution m.message.time).map
        (fmtBucket resolution)) := by
    rw [group_messages_by_time_eq_rle, hmapeq]
  have hvalid : ∀ b ∈ msgs.map fun m => bucketOf resolution m.message.time,
      validBucket resolution b := by
    intro b hb
    simp only [List.mem_map] at hb
    obtain ⟨m, _, hm⟩ := hb
    exact hm ▸ bucketOf_valid resolution m.message.time
  have hinj : ∀ a ∈ msgs.map fun m => bucketOf resolution m.message.time,
      ∀ b ∈ msgs.map fun m => bucketOf resolution m.message.time,
      fmtBucket resolution a = fmtBucket resolution b → a = b :=
    fun a ha b hb => fmtBucket_inj resolution a b (hvalid a ha) (hvalid b hb)
  have hmap := rle_map (fmtBucket resolution)
    (msgs.map fun m => bucketOf resolution m.message.time) hinj
  have hchainle : List.Chain' dateLe
      (msgs.map fun m => bucketOf resolution m.message.time) :=
    (hsorted.map _ fun a b hab => bucketOf_mono resolution _ _ hab).chain'
  have hchainlt : List.Chain' dateLt
      ((rle (msgs.map fun m => bucketOf resolution m.message.time)).map Prod.fst) :=
    (rle_chain dateLe _ hchainle).imp fun a b hab => dateLe_ne_lt a b hab.1 hab.2
  have hlabels : (group_messages_by_time msgs resolution).map Prod.fst =
      ((rle (msgs.map fun m => bucketOf resolution m.message.time)).map Prod.fst).map
        (fmtBucket resolution) := by
    rw [heq, hmap, List.map_map, List.map_map]
    rfl
  refine ⟨?_, (rle (msgs.map fun m => bucketOf resolution m.message.time)).map Prod.fst,
    hchainlt, hlabels⟩
  rw [hlabels]
  have hnodup : ((rle (msgs.map fun m =>
      bucketOf resolution m.message.time)).map Prod.fst).Nodup := by
    have hpair := List.chain'_iff_pairwise.1 hchainlt
    refine hpair.imp ?_
    intro a b hab he
    rw [he] at hab
    exact dateLt_irrefl b hab
  exact List.Nodup.map_on
    (fun x hx y hy hxy => hinj x (rle_fst_subset _ x hx) y (rle_fst_subset _ y hy) hxy)
    hnodup

/-- C7: aggregating an empty record sequence at any resolution yields an
empty series — `group_messages_by_time` on the empty list returns the
empty list, emitting no pair. -/
theorem group_messages_by_time_nil (resolution : TimeResolution) :
    group_messages_by_time [] resolution = [] := rfl

/-- C8: for every input record sequence (sorted or not) and every
resolution, the counts produced by `group_messages_by_time` sum to the
number of input records. -/
theorem group_messages_by_time_count_sum (msgs : List MessageInChannel)
    (resolution : TimeResolution) :
    ((group_messages_by_time msgs resolution).map Prod.snd).sum = msgs.length := by
  rw [group_messages_by_time_eq_rle, rle_snd_sum, List.length_map]

/-! ## Claims about the pattern filter -/

/-- A message whose pattern occurs only in the text of a nested sub-block:
the outer block carries its own (non-matching) text and one sub-block whose
text contains the pattern. -/
def nestedBlockMsg : Message :=
  ⟨some "bob", 0, "greetings", none,
    some [MessageBlock.mk "rich_text" none (some "outer")
      (some [MessageBlock.mk "rich_text_section" none (some "the needle text") none])]⟩

/-- C1 (code_bug evidence): the spec's effective-text predicate matches
`nestedBlockMsg` against `"needle"` (the pattern occurs in the text of a
nested sub-block), but `Message::contains` returns `false`, because
`MessageBlock::contains` returns as soon as the outer block has a `text`
field and never searches `elements` — contradicting its own doc comment
"Returns true if block (or any sub-block) contains the given pattern in
its text." -/
theorem message_contains_misses_nested_block :
    Message.contains nestedBlockMsg "needle" = false ∧
      MessageContainsSpec nestedBlockMsg "needle" := by
  constructor
  · decide
  · exact ⟨"the needle text", by decide, by decide⟩

/-! ## Claims about the series reconciler -/

/-- C3: `consolidate_labels` returns exactly the subsequence of each
input consisting of the pairs whose label occurs in both inputs
(a sublist of each input: original relative order kept, counts
unchanged, and precisely the filter by shared labels); when the label
sets are disjoint both outputs are empty; and the concrete example from
the spec holds. -/
theorem consolidate_labels_spec (mc1 mc2 : List (String × Nat)) :
    ((consolidate_labels mc1 mc2).1.Sublist mc1 ∧
      (consolidate_labels mc1 mc2).2.Sublist mc2) ∧
    ((consolidate_labels mc1 mc2).1 =
        mc1.filter (fun p => decide (p.1 ∈ label_set mc1 ∧ p.1 ∈ label_set mc2)) ∧
      (consolidate_labels mc1 mc2).2 =
        mc2.filter (fun p => decide (p.1 ∈ label_set mc1 ∧ p.1 ∈ label_set mc2))) ∧
    ((∀ l ∈ label_set mc1, l ∉ label_set mc2) →
      consolidate_labels mc1 mc2 = ([], [])) ∧
    consolidate_labels [("2024-03", 1), ("2024-04", 2)] [("2024-04", 3)] =
      ([("2024-04", 2)], [("2024-04", 3)]) := by
  have hfilter1 : (consolidate_labels mc1 mc2).1 =
      mc1.filter (fun p => decide (p.1 ∈ label_set mc1 ∧ p.1 ∈ label_set mc2)) := by
    simp [consolidate_labels, Bool.decide_and]
  have hfilter2 : (consolidate_labels mc1 mc2).2 =
      mc2.filter (fun p => decide (p.1 ∈ label_set mc1 ∧ p.1 ∈ label_set mc2)) := by
    simp [consolidate_labels, Bool.decide_and]
  refine ⟨⟨?_, ?_⟩, ⟨hfilter1, hfilter2⟩, ?_, by decide⟩
  · rw [hfilter1]; exact List.filter_sublist mc1
  · rw [hfilter2]; exact List.filter_sublist mc2
  · intro hdisj
    have e1 : (consolidate_labels mc1 mc2).1 = [] := by
      rw [hfilter1, List.filter_eq_nil_iff]
      intro p hp hmem
      rw [decide_eq_true_eq] at hmem
      exact hdisj p.1 hmem.1 hmem.2
    have e2 : (consolidate_labels mc1 mc2).2 = [] := by
      rw [hfilter2, List.filter_eq_nil_iff]
      intro p hp hmem
      rw [decide_eq_true_eq] at hmem
      exact hdisj p.1 hmem.1 hmem.2
    rcases hc : consolidate_labels mc1 mc2 with ⟨u, v⟩
    rw [hc] at e1 e2
    simp only at e1 e2
    rw [e1, e2]

/-! ## Claims about the ratio calculator -/

theorem calc_ratios_getElem (labels : List String) (mc1 mc2 : List (String × Nat))
    (i : Nat) (l n1 n2 : String) (c1 c2 : Nat)
    (h0 : labels[i]? = some l) (h1 : mc1[i]? = some (n1, c1))
    (h2 : mc2[i]? = some (n2, c2)) :
    (calculate_time_series_ratios labels mc1 mc2)[i]? =
      some (l, if c1 + c2 = 0 then (0 : ℚ) else (c1 : ℚ) / ((c1 + c2 : Nat) : ℚ)) := by
  have hz1 : (labels.zip mc1)[i]? = some (l, (n1, c1)) := by
    rw [List.zip_eq_zipWith, List.getElem?_zipWith, h0, h1]
  have hz2 : ((labels.zip mc1).zip mc2)[i]? = some ((l, (n1, c1)), (n2, c2)) := by
    rw [List.zip_eq_zipWith, List.getElem?_zipWith, hz1, h2]
  unfold calculate_time_series_ratios
  rw [List.getElem?_map, hz2]
  simp only [Option.map_some', Option.some.injEq]
  rw [Nat.add_comm c2 c1]

/-- C4: at every position of the output of `calculate_time_series_ratios`
the ratio is count1/(count1+count2), except that when both counts are
zero it is 0 (a value, not an error); in particular counts (2,2) give
1/2, (0,0) give 0, and (3,0) give 1. -/
theorem calculate_time_series_ratios_values :
    (∀ (labels : List String) (mc1 mc2 : List (String × Nat)) (i : Nat)
      (l n1 n2 : String) (c1 c2 : Nat),
      labels[i]? = some l → mc1[i]? = some (n1, c1) → mc2[i]? = some (n2, c2) →
      (calculate_time_series_ratios labels mc1 mc2)[i]? =
        some (l, if c1 + c2 = 0 then (0 : ℚ) else (c1 : ℚ) / ((c1 + c2 : Nat) : ℚ))) ∧
    calculate_time_series_ratios ["x"] [("x", 2)] [("x", 2)] = [("x", (1 : ℚ) / 2)] ∧
    calculate_time_series_ratios ["x"] [("x", 0)] [("x", 0)] = [("x", (0 : ℚ))] ∧
    calculate_time_series_ratios ["x"] [("x", 3)] [("x", 0)] = [("x", (1 : ℚ))] := by
  refine ⟨?_, by norm_num [calculate_time_series_ratios], by norm_num [calculate_time_series_ratios], by norm_num [calculate_time_series_ratios]⟩
  intro labels mc1 mc2 i l n1 n2 c1 c2 h0 h1 h2
  exact calc_ratios_getElem labels mc1 mc2 i l n1 n2 c1 c2 h0 h1 h2

/-- C9: every ratio produced by `calculate_time_series_ratios` lies in
the closed interval [0, 1]. -/
theorem calculate_time_series_ratios_range (labels : List String)
    (mc1 mc2 : List (String × Nat)) (p : String × ℚ)
    (hp : p ∈ calculate_time_series_ratios labels mc1 mc2) :
    0 ≤ p.2 ∧ p.2 ≤ 1 := by
  unfold calculate_time_series_ratios at hp
  rw [List.mem_map] at hp
  obtain ⟨q, _, hq⟩ := hp
  rw [← hq]
  simp only
  by_cases hz : q.2.2 + q.1.2.2 = 0
  · rw [if_pos hz]
    norm_num
  · rw [if_neg hz]
    have hpos : (0 : ℚ) < ((q.1.2.2 + q.2.2 : Nat) : ℚ) := by
      have : 0 < q.1.2.2 + q.2.2 := by omega
      exact_mod_cast this
    constructor
    · positivity
    · rw [div_le_one hpos]
      have : q.1.2.2 ≤ q.1.2.2 + q.2.2 := Nat.le_add_right _ _
      exact_mod_cast this

/-- C10: the output length of `calculate_time_series_ratios` is the
minimum of the three input lengths — positions beyond that minimum are
dropped by the zips, no error is raised. -/
theorem calculate_time_series_ratios_length (labels : List String)
    (mc1 mc2 : List (String × Nat)) :
    (calculate_time_series_ratios labels mc1 mc2).length =
      min (min labels.length mc1.length) mc2.length := by
  unfold calculate_time_series_ratios
  rw [List.length_map, List.length_zip, List.length_zip]


theorem map_fst_filter_fst (l : List (String × Nat)) (q : String → Bool) :
    (l.filter fun p => q p.1).map Prod.fst = (l.map Prod.fst).filter q := by
  induction l with
  | nil => rfl
  | cons x xs ih =>
    by_cases hq : q x.1
    · simp only [List.filter_cons, List.map_cons, hq, if_pos, ih]
    · simp only [List.filter_cons, List.map_cons, hq, Bool.false_eq_true, if_neg,
        not_false_iff, ih]

/-- After reconciling two series whose own label lists have no
duplicates, the two reconciled series have the same length. -/
theorem consolidate_labels_length_eq (mc1 mc2 : List (String × Nat))
    (h1 : (label_set mc1).Nodup) (h2 : (label_set mc2).Nodup) :
    (consolidate_labels mc1 mc2).1.length = (consolidate_labels mc1 mc2).2.length := by
  have e1 : (consolidate_labels mc1 mc2).1.map Prod.fst =
      (label_set mc1).filter fun label =>
        decide (label ∈ label_set mc1) && decide (label ∈ label_set mc2) := by
    simp only [consolidate_labels]
    exact map_fst_filter_fst mc1
      (fun label => decide (label ∈ label_set mc1) && decide (label ∈ label_set mc2))
  have e2 : (consolidate_labels mc1 mc2).2.map Prod.fst =
      (label_set mc2).filter fun label =>
        decide (label ∈ label_set mc1) && decide (label ∈ label_set mc2) := by
    simp only [consolidate_labels]
    exact map_fst_filter_fst mc2
      (fun label => decide (label ∈ label_set mc1) && decide (label ∈ label_set mc2))
  have n1 : ((consolidate_labels mc1 mc2).1.map Prod.fst).Nodup := by
    rw [e1]; exact h1.filter _
  have n2 : ((consolidate_labels mc1 mc2).2.map Prod.fst).Nodup := by
    rw [e2]; exact h2.filter _
  have hperm : List.Perm ((consolidate_labels mc1 mc2).1.map Prod.fst)
      ((consolidate_labels mc1 mc2).2.map Prod.fst) := by
    rw [List.perm_ext_iff_of_nodup n1 n2]
    intro x
    rw [e1, e2, List.mem_filter, List.mem_filter]
    simp only [Bool.and_eq_true, decide_eq_true_eq]
    tauto
  have hlen := hperm.length_eq
  rw [List.length_map, List.length_map] at hlen
  exact hlen

theorem calc_ratios_map_fst (labels : List String) (mc1 mc2 : List (String × Nat))
    (hl1 : labels.length ≤ mc1.length) (hl2 : labels.length ≤ mc2.length) :
    (calculate_time_series_ratios labels mc1 mc2).map Prod.fst = labels := by
  unfold calculate_time_series_ratios
  have h : (((labels.zip mc1).zip mc2).map fun q =>
      (q.1.1, if q.2.2 + q.1.2.2 = 0 then (0 : ℚ)
        else (q.1.2.2 : ℚ) / (((q.1.2.2 + q.2.2 : Nat)) : ℚ))).map Prod.fst =
      (((labels.zip mc1).zip mc2).map Prod.fst).map Prod.fst := by
    rw [List.map_map, List.map_map]
    rfl
  rw [h]
  have hz : (labels.zip mc1).length ≤ mc2.length := by
    rw [List.length_zip]; omega
  rw [List.map_fst_zip _ _ hz, List.map_fst_zip _ _ hl1]

/-- C5: for every pair of reconciled count series (inputs whose own label
lists are duplicate-free, reconciled by `consolidate_labels`) and the
label list handed to the ratio calculator (the labels of the first
reconciled series, as `ratio_plot` passes them), the output of
`calculate_time_series_ratios` carries exactly that label list, in the
same order and with the same length. -/
theorem calculate_time_series_ratios_labels (mc1 mc2 : List (String × Nat))
    (h1 : (label_set mc1).Nodup) (h2 : (label_set mc2).Nodup) :
    (calculate_time_series_ratios (label_set (consolidate_labels mc1 mc2).1)
        (consolidate_labels mc1 mc2).1 (consolidate_labels mc1 mc2).2).map Prod.fst =
      label_set (consolidate_labels mc1 mc2).1 ∧
    (calculate_time_series_ratios (label_set (consolidate_labels mc1 mc2).1)
        (consolidate_labels mc1 mc2).1 (consolidate_labels mc1 mc2).2).length =
      (label_set (consolidate_labels mc1 mc2).1).length := by
  have hlen := consolidate_labels_length_eq mc1 mc2 h1 h2
  have hl1 : (label_set (consolidate_labels mc1 mc2).1).length ≤
      (consolidate_labels mc1 mc2).1.length := by
    rw [label_set, List.length_map]
  have hl2 : (label_set (consolidate_labels mc1 mc2).1).length ≤
      (consolidate_labels mc1 mc2).2.length := by
    rw [label_set, List.length_map]
    omega
  have hmap := calc_ratios_map_fst _ _ _ hl1 hl2
  refine ⟨hmap, ?_⟩
  have hc := congrArg List.length hmap
  rw [List.length_map] at hc
  exact hc

/-! ## Claims about the task runner -/

def taskA : PlotTask :=
  ⟨Metric.MentionCount "" "x", TimeResolution.Daily, "a.png", none⟩

def taskB : PlotTask :=
  ⟨Metric.MentionCount "" "y", TimeResolution.Daily, "b.png", none⟩

/-- A rendering oracle that fails exactly for the task writing `a.png`. -/
def failingCounterPlot : PlotTask → String → List (String × Nat) → Except String Unit :=
  fun task _ _ =>
    if task.output_file_name = "a.png" then Except.error "disk full" else Except.ok ()

def okRatioPlot : PlotTask → String → List (String × Nat) → String →
    List (String × Nat) → Except String Unit :=
  fun _ _ _ _ _ => Except.ok ()

/-- C6 (counterexample): with two count tasks where rendering fails only
for the first, `process_tasks` panics with the `.expect` message; the
second task's own render succeeds, yet its output is not produced — the
failure is not isolated and aborts the sibling task. -/
theorem process_tasks_abort_counterexample :
    process_tasks failingCounterPlot okRatioPlot [taskA, taskB] [] =
        ([], some "Image generation failed.: disk full") ∧
      run_task failingCounterPlot okRatioPlot [] taskB = Except.ok () ∧
      taskB.output_file_name ∉
        (process_tasks failingCounterPlot okRatioPlot [taskA, taskB] []).1 := by
  have h : process_tasks failingCounterPlot okRatioPlot [taskA, taskB] [] =
      ([], some "Image generation failed.: disk full") := by decide
  refine ⟨h, rfl, ?_⟩
  rw [h]
  exact List.not_mem_nil _

/-- C6 (amended): a rendering or export failure while processing one task
panics via `.expect("Image generation failed.")`; the panic carries the
error and aborts `process_tasks`, so no task after the failing one is
processed and no output of the remaining tasks is produced. -/
theorem process_tasks_failure_aborts
    (counter_plot : PlotTask → String → List (String × Nat) → Except String Unit)
    (ratio_plot : PlotTask → String → List (String × Nat) → String →
      List (String × Nat) → Except String Unit)
    (messages : List MessageInChannel) (task : PlotTask) (rest : List PlotTask)
    (e : String)
    (hfail : run_task counter_plot ratio_plot messages task = Except.error e) :
    process_tasks counter_plot ratio_plot (task :: rest) messages =
      ([], some ("Image generation failed.: " ++ e)) := by
  unfold process_tasks
  rw [hfail]

/-- Witness for `process_tasks_failure_aborts` at a concrete failing task. -/
theorem process_tasks_failure_aborts_witness :
    run_task failingCounterPlot okRatioPlot [] taskA = Except.error "disk full" ∧
      process_tasks failingCounterPlot okRatioPlot [taskA, taskB] [] =
        ([], some ("Image generation failed.: " ++ "disk full")) :=
  ⟨rfl,
    process_tasks_failure_aborts failingCounterPlot okRatioPlot [] taskA [taskB]
      "disk full" rfl⟩

/-! ## Witnesses at concrete inputs -/

def wMsg1 : MessageInChannel := ⟨"general", ⟨some "alice", 0, "hello", none, none⟩⟩

/-- A message 31 days after the epoch (1970-02-01). -/
def wMsg2 : MessageInChannel := ⟨"general", ⟨some "bob", 2678400, "world", none, none⟩⟩

/-- Witness for the sorted-labels theorem at a concrete two-message input. -/
theorem group_messages_by_time_sorted_labels_witness :
    List.Pairwise (fun a b => a.message.time ≤ b.message.time) [wMsg1, wMsg2] ∧
      (((group_messages_by_time [wMsg1, wMsg2] TimeResolution.Daily).map Prod.fst).Nodup ∧
        ∃ ks : List (Nat × Nat × Nat), ks.Chain' dateLt ∧
          (group_messages_by_time [wMsg1, wMsg2] TimeResolution.Daily).map Prod.fst =
            ks.map (fmtBucket TimeResolution.Daily)) := by
  have h : List.Pairwise (fun a b => a.message.time ≤ b.message.time) [wMsg1, wMsg2] := by
    refine List.Pairwise.cons ?_ (List.Pairwise.cons ?_ List.Pairwise.nil)
    · intro b hb
      rw [List.mem_singleton] at hb
      subst hb
      decide
    · intro b hb
      simp at hb
  exact ⟨h, group_messages_by_time_sorted_labels [wMsg1, wMsg2] TimeResolution.Daily h⟩

/-- Witness for the reconciled-labels theorem at the spec's example input. -/
theorem calculate_time_series_ratios_labels_witness :
    (label_set [("2024-03", 1), ("2024-04", 2)]).Nodup ∧
      (label_set [("2024-04", 3)]).Nodup ∧
      ((calculate_time_series_ratios
          (label_set (consolidate_labels [("2024-03", 1), ("2024-04", 2)] [("2024-04", 3)]).1)
          (consolidate_labels [("2024-03", 1), ("2024-04", 2)] [("2024-04", 3)]).1
          (consolidate_labels [("2024-03", 1), ("2024-04", 2)] [("2024-04", 3)]).2).map
            Prod.fst =
        label_set (consolidate_labels [("2024-03", 1), ("2024-04", 2)] [("2024-04", 3)]).1 ∧
      (calculate_time_series_ratios
          (label_set (consolidate_labels [("2024-03", 1), ("2024-04", 2)] [("2024-04", 3)]).1)
          (consolidate_labels [("2024-03", 1), ("2024-04", 2)] [("2024-04", 3)]).1
          (consolidate_labels [("2024-03", 1), ("2024-04", 2)] [("2024-04", 3)]).2).length =
        (label_set (consolidate_labels [("2024-03", 1), ("2024-04", 2)]
          [("2024-04", 3)]).1).length) := by
  have h1 : (label_set [("2024-03", 1), ("2024-04", 2)]).Nodup := by decide
  have h2 : (label_set [("2024-04", 3)]).Nodup := by decide
  exact ⟨h1, h2, calculate_time_series_ratios_labels _ _ h1 h2⟩

/-- Witness for the ratio-range theorem at a concrete element. -/
theorem calculate_time_series_ratios_range_witness :
    ("x", (1 : ℚ) / 2) ∈ calculate_time_series_ratios ["x"] [("x", 2)] [("x", 2)] ∧
      (0 ≤ ("x", (1 : ℚ) / 2).2 ∧ ("x", (1 : ℚ) / 2).2 ≤ 1) := by
  have hm : ("x", (1 : ℚ) / 2) ∈ calculate_time_series_ratios ["x"] [("x", 2)] [("x", 2)] := by
    norm_num [calculate_time_series_ratios]
  exact ⟨hm, calculate_time_series_ratios_range ["x"] [("x", 2)] [("x", 2)] _ hm⟩

/-! ## Sanity checks of the calendar and formatting model -/

theorem civilFromDays_epoch : civilFromDays 0 = (1970, 1, 1) := by rfl

theorem civilFromDays_leap_day : civilFromDays (365 + 365 + 59) = (1972, 2, 29) := by rfl

theorem civilFromDays_after_leap : civilFromDays (365 + 365 + 60) = (1972, 3, 1) := by rfl

theorem civilFromDays_example : civilFromDays 19815 = (2024, 4, 2) := by rfl

theorem time_by_resolution_epoch_daily :
    time_by_resolution wMsg1 TimeResolution.Daily = "1970-01-01" := by rfl

theorem time_by_resolution_monthly_example :
    time_by_resolution wMsg2 TimeResolution.Monthly = "1970-02" := by rfl

theorem time_by_resolution_yearly_example :
    time_by_resolution wMsg2 TimeResolution.Yearly = "1970" := by rfl
